import Mathlib

/-!
Shallow embedding of the discord-fs core (`src/main.rs`) and verification of
its specification claims.

The Rust program keeps three `HashMap`s (`lookup_table : String → FileAttr`,
`data_table : u64 → Vec<u8>`, `path_table : u64 → String`) plus a `last_inode`
counter, and implements the fuser callbacks `lookup`, `getattr`, `read`,
`readdir`, `mknod`, `unlink`, `open`, `write`, `flush`, `release`, `setattr`.

Hash maps are modelled as association lists: `insertA` replaces the value in
place when the key is present (as `HashMap::insert` does) and appends
otherwise; iteration order of the model is the list order, one concrete
realization of the unspecified `HashMap` iteration order.  Byte vectors are
`List Nat`.  Rust panics (out-of-bounds slice in `read`, out-of-bounds
`Vec::insert` in `write`, `HashMap` indexing in `setattr`, `.unwrap()` in
`update_fs_size`) are modelled explicitly as the `panic` outcome.
-/

namespace DiscordFS

/-- File kinds that occur in the program (`FileType::Directory`,
`FileType::RegularFile`). -/
inductive FileType where
  | directory
  | regularFile
deriving DecidableEq, Repr

/-- The `fuser::FileAttr` record.  The four timestamps are always
`UNIX_EPOCH` in this program and are kept as the constant `0`. -/
structure FileAttr where
  ino : Nat
  size : Nat
  blocks : Nat
  atime : Nat
  mtime : Nat
  ctime : Nat
  crtime : Nat
  kind : FileType
  perm : Nat
  nlink : Nat
  uid : Nat
  gid : Nat
  rdev : Nat
  flags : Nat
  blksize : Nat
deriving DecidableEq, Repr

/-- `ROOT_DIR_ATTR` from `main.rs` (perm `0o755` = 493). -/
def ROOT_DIR_ATTR : FileAttr :=
  { ino := 1, size := 0, blocks := 0,
    atime := 0, mtime := 0, ctime := 0, crtime := 0,
    kind := FileType.directory, perm := 493, nlink := 2,
    uid := 502, gid := 20, rdev := 0, flags := 0, blksize := 512 }

/-- `HashMap::get`, on the association-list model. -/
def getA {κ α : Type} [DecidableEq κ] : List (κ × α) → κ → Option α
  | [], _ => none
  | p :: m, k => if p.1 = k then some p.2 else getA m k

/-- `HashMap::insert`: replace the entry in place when the key is present,
append a new entry otherwise. -/
def insertA {κ α : Type} [DecidableEq κ] : List (κ × α) → κ → α → List (κ × α)
  | [], k, v => [(k, v)]
  | p :: m, k, v => if p.1 = k then (k, v) :: m else p :: insertA m k v

/-- `HashMap::remove`: drop the entry with the given key. -/
def removeA {κ α : Type} [DecidableEq κ] : List (κ × α) → κ → List (κ × α)
  | [], _ => []
  | p :: m, k => if p.1 = k then m else p :: removeA m k

/-- The `FS` struct: the three stores and the inode counter. -/
structure FS where
  lookup_table : List (String × FileAttr)
  data_table : List (Nat × List Nat)
  path_table : List (Nat × String)
  last_inode : Nat
deriving DecidableEq, Repr

/-- Result of one callback.  `enoent` is `reply.error(ENOENT)`; `panic` marks
a Rust panic (the process aborts). -/
inductive FsResult (α : Type) where
  | ok : α → FsResult α
  | enoent : FsResult α
  | panic : FsResult α
deriving DecidableEq, Repr

/-- `FS::default()`: root attributes under the reserved name `"."` and the
path-table entry `0 ↦ "."`. -/
def FS.default : FS :=
  { lookup_table := insertA [] "." ROOT_DIR_ATTR,
    data_table := [],
    path_table := insertA [] 0 ".",
    last_inode := 1 }

/-- `FS::add_file`: allocate `last_inode + 1`, build the fixed regular-file
attributes, and register the file in all three stores. -/
def FS.add_file (fs : FS) (name : String) (data : List Nat) :
    (Nat × FileAttr) × FS :=
  let new_inode := fs.last_inode + 1
  let attr : FileAttr :=
    { ino := new_inode, size := data.length, blocks := data.length / 512 + 1,
      atime := 0, mtime := 0, ctime := 0, crtime := 0,
      kind := FileType.regularFile, perm := 493, nlink := 2,
      uid := 501, gid := 20, rdev := 0, flags := 0, blksize := 512 }
  ((new_inode, attr),
   { lookup_table := insertA fs.lookup_table name attr,
     data_table := insertA fs.data_table new_inode data,
     path_table := insertA fs.path_table new_inode name,
     last_inode := new_inode })

/-- The sum computed by `FS::update_fs_size`: for every `lookup_table` entry
whose inode has a blob, add the blob's length. -/
def sizeSumOf (lt : List (String × FileAttr)) (dt : List (Nat × List Nat)) :
    Nat :=
  (lt.map (fun p => ((getA dt p.2.ino).getD []).length)).sum

/-- `FS::update_fs_size`: recompute the root's `size`/`blocks` and store them
back under `"."`.  The source unwraps `lookup_table.get(".")`; when `"."` is
absent that `.unwrap()` panics, modelled as `none`. -/
def FS.update_fs_size (fs : FS) : Option FS :=
  match getA fs.lookup_table "." with
  | none => none
  | some root =>
    some { fs with
      lookup_table := insertA fs.lookup_table "."
        { root with
            size := sizeSumOf fs.lookup_table fs.data_table,
            blocks := sizeSumOf fs.lookup_table fs.data_table / 512 + 1 } }

/-- `Filesystem::lookup`: only parent 1 is valid; then a plain name lookup. -/
def FS.lookup (fs : FS) (parent : Nat) (name : String) : FsResult FileAttr :=
  if parent ≠ 1 then .enoent
  else
    match getA fs.lookup_table name with
    | none => .enoent
    | some attr => .ok attr

/-- `Filesystem::getattr`: linear scan of `lookup_table.values()` for the
first attribute record with the requested inode. -/
def FS.getattr (fs : FS) (ino : Nat) : FsResult FileAttr :=
  match fs.lookup_table.find? (fun p => p.2.ino = ino) with
  | some p => .ok p.2
  | none => .enoent

/-- `Filesystem::read`: `&data[offset..]`.  A Rust slice `[offset..]` panics
exactly when `offset > data.len()`; otherwise the remaining bytes are
returned (the requested size is ignored). -/
def FS.read (fs : FS) (ino offset : Nat) : FsResult (List Nat) :=
  match getA fs.data_table ino with
  | none => .enoent
  | some data =>
    if data.length < offset then .panic else .ok (data.drop offset)

/-- The `entries` vector built by `readdir`: `(1, Directory, "..")` followed
by one `(ino, RegularFile, name)` triple per `lookup_table` entry — every
entry, the root's own `"."` record included, and always with kind
`RegularFile`. -/
def FS.readdirEntries (fs : FS) : List (Nat × FileType × String) :=
  (1, FileType.directory, "..") ::
    fs.lookup_table.map (fun p => (p.2.ino, FileType.regularFile, p.1))

/-- `entries.into_iter().enumerate()` with the cookie `i + 1` attached to the
entry at 0-based index `i`. -/
def addCookies (i : Nat) :
    List (Nat × FileType × String) → List (Nat × Nat × FileType × String)
  | [] => []
  | e :: rest => (e.1, i + 1, e.2.1, e.2.2) :: addCookies (i + 1) rest

/-- The listing with cookies, before pagination. -/
def FS.fullListing (fs : FS) : List (Nat × Nat × FileType × String) :=
  addCookies 0 fs.readdirEntries

/-- `Filesystem::readdir`: only inode 1 is valid; skip `offset` entries of
the enumerated listing and emit until `reply.add` reports a full buffer,
modelled by the capacity `cap` (entries the reply buffer accepts). -/
def FS.readdir (fs : FS) (ino offset cap : Nat) :
    FsResult (List (Nat × Nat × FileType × String)) :=
  if ino ≠ 1 then .enoent
  else .ok ((fs.fullListing.drop offset).take cap)

/-- `Filesystem::mknod`: the parent, mode, umask and rdev arguments are
ignored; always `add_file(name, &[0])`. -/
def FS.mknod (fs : FS) (_parent : Nat) (name : String)
    (_mode _umask _rdev : Nat) : FsResult FileAttr × FS :=
  let r := fs.add_file name [0]
  (.ok r.1.2, r.2)

/-- `Filesystem::unlink`: the parent is ignored; remove the namespace entry
for `name`, `ENOENT` when absent.  `data_table` and `path_table` are left
untouched. -/
def FS.unlink (fs : FS) (_parent : Nat) (name : String) :
    FsResult Unit × FS :=
  if (getA fs.lookup_table name).isSome then
    (.ok (), { fs with lookup_table := removeA fs.lookup_table name })
  else (.enoent, fs)

/-- `Filesystem::open`: `ENOENT` unless `data_table` contains the inode,
else recompute the filesystem size and reply `opened(0, flags)`. -/
def FS.openOp (fs : FS) (ino flags : Nat) : FsResult (Nat × Nat) × FS :=
  if (getA fs.data_table ino).isSome then
    match fs.update_fs_size with
    | some fs1 => (.ok (0, flags), fs1)
    | none => (.panic, fs)
  else (.enoent, fs)

/-- `existing_data.insert(offset + i, b)` for the bytes `b` of `data` in
order: the loop body of `write`, with `pos = offset + i`. -/
def insertBytesFrom (existing : List Nat) (pos : Nat) :
    List Nat → List Nat
  | [] => existing
  | b :: rest =>
    insertBytesFrom (existing.take pos ++ b :: existing.drop pos) (pos + 1)
      rest

/-- The state of the stores after `write`'s in-place mutations (bytes
inserted into the blob, `attrs.size` grown when `offset + data.len()`
exceeds it) and before the final `update_fs_size` call. -/
def FS.writeState (fs : FS) (ino offset : Nat) (data : List Nat)
    (path : String) (attrs : FileAttr) (existing : List Nat) : FS :=
  { fs with
    data_table := insertA fs.data_table ino (insertBytesFrom existing offset data),
    lookup_table := insertA fs.lookup_table path
      (if attrs.size < data.length + offset then
        { attrs with size := data.length + offset }
      else attrs) }

/-- `Filesystem::write`: resolve the inode through `path_table`, then the
attributes through `lookup_table`, then the blob; insert the bytes one by one
at `offset + i` (`Vec::insert` panics when the index exceeds the current
length, which happens exactly when `data` is nonempty and
`offset > existing.len()`, before any mutation); grow `attrs.size` when
`offset + data.len()` exceeds it; recompute the filesystem size; reply with
`data.len()`. -/
def FS.write (fs : FS) (ino offset : Nat) (data : List Nat) :
    FsResult Nat × FS :=
  match getA fs.path_table ino with
  | none => (.enoent, fs)
  | some path =>
    match getA fs.lookup_table path with
    | none => (.enoent, fs)
    | some attrs =>
      match getA fs.data_table ino with
      | none => (.enoent, fs)
      | some existing =>
        if 0 < data.length ∧ existing.length < offset then (.panic, fs)
        else
          match (fs.writeState ino offset data path attrs existing).update_fs_size with
          | some fs2 => (.ok data.length, fs2)
          | none => (.panic, fs.writeState ino offset data path attrs existing)

/-- `Filesystem::flush`: like `open`, acknowledging with no payload. -/
def FS.flush (fs : FS) (ino : Nat) : FsResult Unit × FS :=
  if (getA fs.data_table ino).isSome then
    match fs.update_fs_size with
    | some fs1 => (.ok (), fs1)
    | none => (.panic, fs)
  else (.enoent, fs)

/-- `Filesystem::release`: identical checks to `flush`. -/
def FS.release (fs : FS) (ino : Nat) : FsResult Unit × FS :=
  if (getA fs.data_table ino).isSome then
    match fs.update_fs_size with
    | some fs1 => (.ok (), fs1)
    | none => (.panic, fs)
  else (.enoent, fs)

/-- `Filesystem::setattr`: `&self.path_table[&ino]` and
`self.lookup_table[path]` are panicking index operations; every requested
mutation field is ignored and the current attributes are returned. -/
def FS.setattr (fs : FS) (ino : Nat) : FsResult FileAttr :=
  match getA fs.path_table ino with
  | none => .panic
  | some path =>
    match getA fs.lookup_table path with
    | none => .panic
    | some attr => .ok attr

/-- One incoming protocol request. -/
inductive Op where
  | lookup (parent : Nat) (name : String)
  | getattr (ino : Nat)
  | read (ino offset : Nat)
  | readdir (ino offset cap : Nat)
  | mknod (parent : Nat) (name : String) (mode umask rdev : Nat)
  | unlink (parent : Nat) (name : String)
  | openOp (ino flags : Nat)
  | write (ino offset : Nat) (data : List Nat)
  | flush (ino : Nat)
  | release (ino : Nat)
  | setattr (ino : Nat)
deriving DecidableEq, Repr

/-- Outcome kind of one request. -/
inductive RStatus where
  | ok
  | enoent
  | panic
deriving DecidableEq, Repr

/-- Forget the payload of a result. -/
def FsResult.status {α : Type} : FsResult α → RStatus
  | .ok _ => .ok
  | .enoent => .enoent
  | .panic => .panic

/-- Dispatch one request against the state (payloads forgotten). -/
def FS.step (fs : FS) : Op → RStatus × FS
  | .lookup parent name => ((fs.lookup parent name).status, fs)
  | .getattr ino => ((fs.getattr ino).status, fs)
  | .read ino offset => ((fs.read ino offset).status, fs)
  | .readdir ino offset cap => ((fs.readdir ino offset cap).status, fs)
  | .mknod parent name mode umask rdev =>
    let r := fs.mknod parent name mode umask rdev
    (r.1.status, r.2)
  | .unlink parent name =>
    let r := fs.unlink parent name
    (r.1.status, r.2)
  | .openOp ino flags =>
    let r := fs.openOp ino flags
    (r.1.status, r.2)
  | .write ino offset data =>
    let r := fs.write ino offset data
    (r.1.status, r.2)
  | .flush ino =>
    let r := fs.flush ino
    (r.1.status, r.2)
  | .release ino =>
    let r := fs.release ino
    (r.1.status, r.2)
  | .setattr ino => ((fs.setattr ino).status, fs)

/-- Run a sequence of requests. -/
def FS.run (fs : FS) (ops : List Op) : FS :=
  ops.foldl (fun s op => (s.step op).2) fs

/-- `"Hello, World!"` as bytes (13 bytes). -/
def helloBytes : List Nat :=
  [72, 101, 108, 108, 111, 44, 32, 87, 111, 114, 108, 100, 33]

/-- `"YOOO I DID IT LETS GOOO"` as bytes (23 bytes). -/
def amongusBytes : List Nat :=
  [89, 79, 79, 79, 32, 73, 32, 68, 73, 68, 32, 73, 84, 32, 76, 69, 84, 83,
   32, 71, 79, 79, 79]

/-- The state `main` hands to `fuser::mount2`: `FS::default()` with
`hello.txt` (inode 2) and `amongus.txt` (inode 3) added. -/
def seededFS : FS :=
  ((FS.default.add_file "hello.txt" helloBytes).2.add_file
    "amongus.txt" amongusBytes).2

/-- The cookie carried by the last entry of a `readdir` page (what a
consumer passes back as the next `offset`). -/
def lastCookie (page : List (Nat × Nat × FileType × String)) : Nat :=
  ((page.getLast?).map (fun e => e.2.1)).getD 0

/-- A paginating `readdir` consumer: one call per capacity in `caps`,
resuming each call at the cookie of the previous page's last entry and
stopping at the first empty page; the pages are concatenated. -/
def FS.paginate (fs : FS) : Nat → List Nat → List (Nat × Nat × FileType × String)
  | _, [] => []
  | offset, cap :: rest =>
    match fs.readdir 1 offset cap with
    | .ok page =>
      if page.isEmpty then [] else page ++ fs.paginate (lastCookie page) rest
    | _ => []

/-- Every attribute record in the namespace has an inode no larger than the
allocator's counter (true in every reachable state; used as an explicit
hypothesis). -/
def BasicInv (fs : FS) : Prop :=
  ∀ p ∈ fs.lookup_table, p.2.ino ≤ fs.last_inode

/-- The root record's `size` equals the recomputed aggregate size and its
`blocks` field is `size / 512 + 1` (hence at least 1). -/
def RootSize (fs : FS) : Prop :=
  ∃ a, getA fs.lookup_table "." = some a ∧
    a.size = sizeSumOf fs.lookup_table fs.data_table ∧
    a.blocks = a.size / 512 + 1 ∧ 1 ≤ a.blocks

/-- The root directory record is intact: the `"."` entry holds inode 1 with
directory kind, no other entry claims inode 1, and the allocator is past the
reserved inode. -/
def RootInv (fs : FS) : Prop :=
  (∃ a, getA fs.lookup_table "." = some a ∧ a.ino = 1 ∧
    a.kind = FileType.directory) ∧
  (∀ p ∈ fs.lookup_table, p.1 ≠ "." → p.2.ino ≠ 1) ∧
  1 ≤ fs.last_inode

/-- Requests that never use the reserved name `"."` as the name argument of
`mknod` or `unlink`. -/
def Op.avoidsRootName : Op → Bool
  | .mknod _ name _ _ _ => name ≠ "."
  | .unlink _ name => name ≠ "."
  | _ => true

/-- The four requests that trigger `update_fs_size`. -/
def Op.isLifecycle : Op → Bool
  | .openOp _ _ => true
  | .write _ _ _ => true
  | .flush _ => true
  | .release _ => true
  | _ => false

section AssocLemmas

variable {κ α : Type} [DecidableEq κ]

theorem getA_insertA_self (m : List (κ × α)) (k : κ) (v : α) :
    getA (insertA m k v) k = some v := by
  induction m with
  | nil => simp [insertA, getA]
  | cons p m ih =>
    by_cases h : p.1 = k
    · simp [insertA, getA, h]
    · simp [insertA, getA, h, ih]

theorem getA_insertA_ne {m : List (κ × α)} {k k' : κ} {v : α} (h : k' ≠ k) :
    getA (insertA m k v) k' = getA m k' := by
  induction m with
  | nil => simp [insertA, getA, Ne.symm h]
  | cons p m ih =>
    by_cases hp : p.1 = k
    · simp [insertA, getA, hp, Ne.symm h]
    · by_cases hp' : p.1 = k'
      · simp [insertA, getA, hp, hp', h]
      · simp [insertA, getA, hp, hp', ih]

theorem getA_mem {m : List (κ × α)} {k : κ} {v : α}
    (h : getA m k = some v) : (k, v) ∈ m := by
  induction m with
  | nil => simp [getA] at h
  | cons p m ih =>
    obtain ⟨p1, p2⟩ := p
    by_cases hp : p1 = k
    · simp only [getA, hp, if_pos] at h
      rw [Option.some_inj] at h
      subst hp
      subst h
      exact List.mem_cons_self _ _
    · simp only [getA, hp] at h
      rw [if_neg (by simpa using hp)] at h
      exact List.mem_cons_of_mem _ (ih h)

theorem getA_eq_none {m : List (κ × α)} {k : κ}
    (h : k ∉ m.map Prod.fst) : getA m k = none := by
  induction m with
  | nil => rfl
  | cons p m ih =>
    simp only [List.map_cons, List.mem_cons] at h
    push_neg at h
    simp [getA, Ne.symm h.1, ih h.2]

theorem mem_keys_insertA {m : List (κ × α)} {k x : κ} {v : α}
    (h : x ∈ (insertA m k v).map Prod.fst) :
    x = k ∨ x ∈ m.map Prod.fst := by
  induction m with
  | nil => simpa [insertA] using h
  | cons p m ih =>
    by_cases hp : p.1 = k
    · simp only [insertA, if_pos hp, List.map_cons, List.mem_cons] at h
      rcases h with h | h
      · exact Or.inl h
      · exact Or.inr (by simp [h])
    · simp only [insertA, if_neg hp, List.map_cons, List.mem_cons] at h
      rcases h with h | h
      · exact Or.inr (by simp [h])
      · rcases ih h with h' | h'
        · exact Or.inl h'
        · exact Or.inr (by simp [h'])

theorem nodup_keys_insertA {m : List (κ × α)} {k : κ} {v : α}
    (h : (m.map Prod.fst).Nodup) :
    ((insertA m k v).map Prod.fst).Nodup := by
  induction m with
  | nil => simp [insertA]
  | cons p m ih =>
    simp only [List.map_cons, List.nodup_cons] at h
    by_cases hp : p.1 = k
    · simp only [insertA, if_pos hp, List.map_cons, List.nodup_cons]
      exact ⟨hp ▸ h.1, h.2⟩
    · simp only [insertA, if_neg hp, List.map_cons, List.nodup_cons]
      refine ⟨fun hmem => ?_, ih h.2⟩
      rcases mem_keys_insertA hmem with h' | h'
      · exact hp h'
      · exact h.1 h'

theorem mem_insertA_weak {m : List (κ × α)} {k : κ} {v : α} {p : κ × α}
    (hp : p ∈ insertA m k v) : p = (k, v) ∨ p ∈ m := by
  induction m with
  | nil => simpa [insertA] using hp
  | cons q m ih =>
    by_cases hq : q.1 = k
    · simp only [insertA, if_pos hq, List.mem_cons] at hp
      rcases hp with h | h
      · exact Or.inl h
      · exact Or.inr (List.mem_cons_of_mem _ h)
    · simp only [insertA, if_neg hq, List.mem_cons] at hp
      rcases hp with h | h
      · exact Or.inr (by simp [h])
      · rcases ih h with h' | h'
        · exact Or.inl h'
        · exact Or.inr (List.mem_cons_of_mem _ h')

theorem mem_insertA_of_nodup {m : List (κ × α)} {k : κ} {v : α} {p : κ × α}
    (hn : (m.map Prod.fst).Nodup) (hp : p ∈ insertA m k v) :
    p = (k, v) ∨ (p ∈ m ∧ p.1 ≠ k) := by
  induction m with
  | nil => simp [insertA] at hp; exact Or.inl hp
  | cons q m ih =>
    simp only [List.map_cons, List.nodup_cons] at hn
    by_cases hq : q.1 = k
    · simp only [insertA, if_pos hq, List.mem_cons] at hp
      rcases hp with h | h
      · exact Or.inl h
      · refine Or.inr ⟨List.mem_cons_of_mem _ h, fun hk => ?_⟩
        exact (hq ▸ hn.1) (hk ▸ List.mem_map_of_mem Prod.fst h)
    · simp only [insertA, if_neg hq, List.mem_cons] at hp
      rcases hp with h | h
      · exact Or.inr ⟨by simp [h], h ▸ hq⟩
      · rcases ih hn.2 h with h' | h'
        · exact Or.inl h'
        · exact Or.inr ⟨List.mem_cons_of_mem _ h'.1, h'.2⟩

theorem getA_removeA_ne {m : List (κ × α)} {k k' : κ} (h : k' ≠ k) :
    getA (removeA m k) k' = getA m k' := by
  induction m with
  | nil => rfl
  | cons p m ih =>
    by_cases hp : p.1 = k
    · simp [removeA, getA, hp, Ne.symm h]
    · by_cases hp' : p.1 = k'
      · simp [removeA, getA, hp, hp', h]
      · simp [removeA, getA, hp, hp', ih]

theorem removeA_sublist (m : List (κ × α)) (k : κ) :
    (removeA m k).Sublist m := by
  induction m with
  | nil => exact List.Sublist.refl _
  | cons p m ih =>
    by_cases hp : p.1 = k
    · simpa [removeA, hp] using List.sublist_cons_self p m
    · simpa [removeA, hp] using List.Sublist.cons₂ p ih

theorem mem_removeA {m : List (κ × α)} {k : κ} {p : κ × α}
    (hp : p ∈ removeA m k) : p ∈ m :=
  (removeA_sublist m k).subset hp

theorem getA_removeA_self {m : List (κ × α)} {k : κ}
    (hn : (m.map Prod.fst).Nodup) : getA (removeA m k) k = none := by
  induction m with
  | nil => rfl
  | cons p m ih =>
    simp only [List.map_cons, List.nodup_cons] at hn
    by_cases hp : p.1 = k
    · simpa [removeA, hp] using getA_eq_none (hp ▸ hn.1)
    · simp [removeA, getA, hp, ih hn.2]

theorem nodup_keys_removeA {m : List (κ × α)} {k : κ}
    (hn : (m.map Prod.fst).Nodup) :
    ((removeA m k).map Prod.fst).Nodup :=
  ((removeA_sublist m k).map Prod.fst).nodup hn

end AssocLemmas

theorem find?_ino_insertA {m : List (String × FileAttr)} {k : String}
    {v : FileAttr} {i : Nat} (hm : ∀ p ∈ m, p.2.ino ≠ i) (hv : v.ino = i) :
    (insertA m k v).find? (fun p => p.2.ino = i) = some (k, v) := by
  induction m with
  | nil => simp [insertA, List.find?, hv]
  | cons p m ih =>
    by_cases hp : p.1 = k
    · rw [show insertA (p :: m) k v = (k, v) :: m by simp [insertA, hp]]
      exact List.find?_cons_of_pos _ (by simp [hv])
    · rw [show insertA (p :: m) k v = p :: insertA m k v by simp [insertA, hp]]
      rw [List.find?_cons_of_neg _ (by simp [hm p (List.mem_cons_self p m)])]
      exact ih (fun q hq => hm q (List.mem_cons_of_mem _ hq))

theorem find?_ino_of_getA {m : List (String × FileAttr)} {k : String}
    {a : FileAttr} {i : Nat} (hk : getA m k = some a) (ha : a.ino = i)
    (hothers : ∀ p ∈ m, p.1 ≠ k → p.2.ino ≠ i) :
    m.find? (fun p => p.2.ino = i) = some (k, a) := by
  induction m with
  | nil => simp [getA] at hk
  | cons p m ih =>
    by_cases hp : p.1 = k
    · have hpa : p.2 = a := by simpa [getA, hp] using hk
      have hpe : p = (k, a) := by
        obtain ⟨p1, p2⟩ := p
        simp only at hp hpa
        rw [hp, hpa]
      rw [hpe]
      exact List.find?_cons_of_pos _ (by simp [ha])
    · rw [List.find?_cons_of_neg _
        (by simp [hothers p (List.mem_cons_self p m) hp])]
      exact ih (by simpa [getA, hp] using hk)
        (fun q hq hq' => hothers q (List.mem_cons_of_mem _ hq) hq')

theorem find?_ino_none {m : List (String × FileAttr)} {i : Nat}
    (hm : ∀ p ∈ m, p.2.ino ≠ i) :
    m.find? (fun p => p.2.ino = i) = none :=
  List.find?_eq_none.2 (fun p hp => by simp [hm p hp])

theorem sizeSumOf_insertA {lt : List (String × FileAttr)}
    {dt : List (Nat × List Nat)} {k : String} {a b : FileAttr}
    (hk : getA lt k = some a) (hino : b.ino = a.ino) :
    sizeSumOf (insertA lt k b) dt = sizeSumOf lt dt := by
  induction lt with
  | nil => simp [getA] at hk
  | cons p lt ih =>
    by_cases hp : p.1 = k
    · have hpa : p.2 = a := by simpa [getA, hp] using hk
      rw [show insertA (p :: lt) k b = (k, b) :: lt by simp [insertA, hp]]
      simp [sizeSumOf, hino, hpa]
    · rw [show insertA (p :: lt) k b = p :: insertA lt k b by simp [insertA, hp]]
      have hih := ih (by simpa [getA, hp] using hk)
      simp only [sizeSumOf, List.map_cons, List.sum_cons] at hih ⊢
      rw [hih]

theorem update_fs_size_eq {fs fs1 : FS} (h : fs.update_fs_size = some fs1) :
    ∃ root newRoot, getA fs.lookup_table "." = some root ∧
      newRoot = { root with
          size := sizeSumOf fs.lookup_table fs.data_table,
          blocks := sizeSumOf fs.lookup_table fs.data_table / 512 + 1 } ∧
      fs1 = { fs with lookup_table := insertA fs.lookup_table "." newRoot } := by
  unfold FS.update_fs_size at h
  cases hr : getA fs.lookup_table "." with
  | none => rw [hr] at h; cases h
  | some root =>
    rw [hr] at h
    exact ⟨root, _, rfl, rfl, (Option.some_inj.1 h).symm⟩

theorem rootSize_of_update {fs fs1 : FS} (h : fs.update_fs_size = some fs1) :
    RootSize fs1 := by
  obtain ⟨root, newRoot, hr, hnr, rfl⟩ := update_fs_size_eq h
  subst hnr
  refine ⟨_, getA_insertA_self _ _ _, ?_, ?_, ?_⟩
  · show sizeSumOf fs.lookup_table fs.data_table =
      sizeSumOf (insertA fs.lookup_table "." _) fs.data_table
    exact (sizeSumOf_insertA (b :=
      { root with
          size := sizeSumOf fs.lookup_table fs.data_table,
          blocks := sizeSumOf fs.lookup_table fs.data_table / 512 + 1 })
      hr rfl).symm
  · rfl
  · exact Nat.succ_le_succ (Nat.zero_le _)

theorem rootInv_of_update {fs fs1 : FS} (hI : RootInv fs)
    (h : fs.update_fs_size = some fs1) : RootInv fs1 := by
  obtain ⟨root, newRoot, hr, hnr, rfl⟩ := update_fs_size_eq h
  subst hnr
  obtain ⟨⟨a, ha, ha1, hak⟩, hothers, hlast⟩ := hI
  have hra : root = a := by
    rw [hr] at ha
    exact Option.some_inj.1 ha
  subst hra
  refine ⟨⟨_, getA_insertA_self _ _ _, ha1, hak⟩, ?_, hlast⟩
  intro p hp hpne
  rcases mem_insertA_weak hp with h' | h'
  · exact absurd (congrArg Prod.fst h') hpne
  · exact hothers p h' hpne


theorem openOp_rootSize {fs : FS} {ino flags : Nat}
    (h : (fs.openOp ino flags).1.status = RStatus.ok) :
    RootSize (fs.openOp ino flags).2 := by
  unfold FS.openOp at h ⊢
  by_cases hc : (getA fs.data_table ino).isSome
  · rw [if_pos hc] at h ⊢
    rcases fs.update_fs_size.eq_none_or_eq_some with hu | ⟨fs1, hu⟩
    · rw [hu] at h
      simp [FsResult.status] at h
    · rw [hu]
      exact rootSize_of_update hu
  · rw [if_neg hc] at h
    simp [FsResult.status] at h

theorem flush_rootSize {fs : FS} {ino : Nat}
    (h : (fs.flush ino).1.status = RStatus.ok) :
    RootSize (fs.flush ino).2 := by
  unfold FS.flush at h ⊢
  by_cases hc : (getA fs.data_table ino).isSome
  · rw [if_pos hc] at h ⊢
    rcases fs.update_fs_size.eq_none_or_eq_some with hu | ⟨fs1, hu⟩
    · rw [hu] at h
      simp [FsResult.status] at h
    · rw [hu]
      exact rootSize_of_update hu
  · rw [if_neg hc] at h
    simp [FsResult.status] at h

theorem release_rootSize {fs : FS} {ino : Nat}
    (h : (fs.release ino).1.status = RStatus.ok) :
    RootSize (fs.release ino).2 := by
  unfold FS.release at h ⊢
  by_cases hc : (getA fs.data_table ino).isSome
  · rw [if_pos hc] at h ⊢
    rcases fs.update_fs_size.eq_none_or_eq_some with hu | ⟨fs1, hu⟩
    · rw [hu] at h
      simp [FsResult.status] at h
    · rw [hu]
      exact rootSize_of_update hu
  · rw [if_neg hc] at h
    simp [FsResult.status] at h

theorem write_rootSize {fs : FS} {ino offset : Nat} {data : List Nat}
    (h : (fs.write ino offset data).1.status = RStatus.ok) :
    RootSize (fs.write ino offset data).2 := by
  unfold FS.write at h ⊢
  rcases (getA fs.path_table ino).eq_none_or_eq_some with hp | ⟨path, hp⟩
  · rw [hp] at h
    simp [FsResult.status] at h
  · rw [hp] at h ⊢
    dsimp only at h ⊢
    rcases (getA fs.lookup_table path).eq_none_or_eq_some with hq | ⟨attrs, hq⟩
    · rw [hq] at h
      simp [FsResult.status] at h
    · rw [hq] at h ⊢
      dsimp only at h ⊢
      rcases (getA fs.data_table ino).eq_none_or_eq_some with hd | ⟨existing, hd⟩
      · rw [hd] at h
        simp [FsResult.status] at h
      · rw [hd] at h ⊢
        dsimp only at h ⊢
        by_cases hpan : 0 < data.length ∧ existing.length < offset
        · rw [if_pos hpan] at h
          simp [FsResult.status] at h
        · rw [if_neg hpan] at h ⊢
          rcases (fs.writeState ino offset data path attrs
              existing).update_fs_size.eq_none_or_eq_some with hu | ⟨fs2, hu⟩
          · rw [hu] at h
            simp [FsResult.status] at h
          · rw [hu]
            exact rootSize_of_update hu

/-- C5 (amended): immediately after every open, write, flush, or release
call that succeeds (does not raise EntryNotFound or panic), the root's size
equals the sum of the blob lengths of all current namespace entries whose
inode has a blob in the data store, and the root's block count equals
size / 512 + 1 (integer division, at least 1).  On the seeded state the sum
is 13 + 23 = 36, not 37: the second seeded payload is 23 bytes long. -/
theorem c5_amended (fs : FS) (op : Op) (hl : op.isLifecycle = true)
    (hok : (fs.step op).1 = RStatus.ok) : RootSize (fs.step op).2 := by
  cases op with
  | lookup parent name => simp [Op.isLifecycle] at hl
  | getattr ino => simp [Op.isLifecycle] at hl
  | read ino offset => simp [Op.isLifecycle] at hl
  | readdir ino offset cap => simp [Op.isLifecycle] at hl
  | mknod parent name mode umask rdev => simp [Op.isLifecycle] at hl
  | unlink parent name => simp [Op.isLifecycle] at hl
  | setattr ino => simp [Op.isLifecycle] at hl
  | openOp ino flags => exact openOp_rootSize hok
  | flush ino => exact flush_rootSize hok
  | release ino => exact release_rootSize hok
  | write ino offset data => exact write_rootSize hok

/-- Witness for C5: the first open of the seeded 13-byte file succeeds and
the root invariant holds afterwards (with size 36). -/
theorem c5_witness :
    (Op.openOp 2 0).isLifecycle = true ∧
    (seededFS.step (Op.openOp 2 0)).1 = RStatus.ok ∧
    RootSize (seededFS.step (Op.openOp 2 0)).2 :=
  ⟨rfl, rfl, c5_amended seededFS (Op.openOp 2 0) rfl rfl⟩

/-- Counterexample for C5 as stated: after the first open of a seeded file,
`getattr(1)` reports size 36 (the seeded blobs are 13 and 23 bytes), not 37;
and after an `open` call that fails (inode 99), the root's size (still the
initial 0) does not equal the blob-length sum (36). -/
theorem c5_counterexample :
    (seededFS.step (Op.openOp 2 0)).2.getattr 1 =
      FsResult.ok { ROOT_DIR_ATTR with size := 36, blocks := 1 } ∧
    ¬ RootSize (seededFS.step (Op.openOp 99 0)).2 := by
  constructor
  · rfl
  · rintro ⟨a, ha, hs, _⟩
    have hg : getA (seededFS.step (Op.openOp 99 0)).2.lookup_table "." =
        some ROOT_DIR_ATTR := rfl
    rw [hg] at ha
    have ha2 : a = ROOT_DIR_ATTR := (Option.some_inj.1 ha).symm
    subst ha2
    exact absurd hs (by decide)

theorem rootInv_mknod {fs : FS} (hI : RootInv fs) {parent : Nat}
    {name : String} {mode umask rdev : Nat} (hname : name ≠ ".") :
    RootInv (fs.mknod parent name mode umask rdev).2 := by
  obtain ⟨⟨a, ha, ha1, hak⟩, hothers, hlast⟩ := hI
  refine ⟨⟨a, ?_, ha1, hak⟩, ?_, ?_⟩
  · show getA (insertA fs.lookup_table name _) "." = some a
    rw [getA_insertA_ne (fun e => hname e.symm)]
    exact ha
  · intro p hp hpne
    rcases mem_insertA_weak hp with h' | h'
    · subst h'
      show fs.last_inode + 1 ≠ 1
      omega
    · exact hothers p h' hpne
  · exact Nat.le_succ_of_le hlast

theorem rootInv_unlink {fs : FS} (hI : RootInv fs) {parent : Nat}
    {name : String} (hname : name ≠ ".") :
    RootInv (fs.unlink parent name).2 := by
  obtain ⟨⟨a, ha, ha1, hak⟩, hothers, hlast⟩ := hI
  unfold FS.unlink
  by_cases hc : (getA fs.lookup_table name).isSome
  · rw [if_pos hc]
    refine ⟨⟨a, ?_, ha1, hak⟩, ?_, hlast⟩
    · show getA (removeA fs.lookup_table name) "." = some a
      rw [getA_removeA_ne (fun e => hname e.symm)]
      exact ha
    · intro p hp hpne
      exact hothers p (mem_removeA hp) hpne
  · rw [if_neg hc]
    exact ⟨⟨a, ha, ha1, hak⟩, hothers, hlast⟩

theorem rootInv_writeState {fs : FS} (hI : RootInv fs) {ino offset : Nat}
    {data : List Nat} {path : String} {attrs : FileAttr} {existing : List Nat}
    (hq : getA fs.lookup_table path = some attrs) :
    RootInv (fs.writeState ino offset data path attrs existing) := by
  obtain ⟨⟨a, ha, ha1, hak⟩, hothers, hlast⟩ := hI
  have hni : (if attrs.size < data.length + offset then
      { attrs with size := data.length + offset } else attrs).ino = attrs.ino := by
    split <;> rfl
  have hnk : (if attrs.size < data.length + offset then
      { attrs with size := data.length + offset } else attrs).kind = attrs.kind := by
    split <;> rfl
  unfold FS.writeState
  by_cases hpd : path = "."
  · subst hpd
    have haa : attrs = a := by
      rw [ha] at hq
      exact Option.some_inj.1 hq.symm
    refine ⟨⟨_, getA_insertA_self _ _ _, ?_, ?_⟩, ?_, hlast⟩
    · rw [hni, haa]
      exact ha1
    · rw [hnk, haa]
      exact hak
    · intro p hp hpne
      rcases mem_insertA_weak hp with h' | h'
      · exact absurd (congrArg Prod.fst h') hpne
      · exact hothers p h' hpne
  · refine ⟨⟨a, ?_, ha1, hak⟩, ?_, hlast⟩
    · show getA (insertA fs.lookup_table path _) "." = some a
      rw [getA_insertA_ne (fun e => hpd e.symm)]
      exact ha
    · intro p hp hpne
      rcases mem_insertA_weak hp with h' | h'
      · subst h'
        show (if attrs.size < data.length + offset then
          { attrs with size := data.length + offset } else attrs).ino ≠ 1
        rw [hni]
        exact hothers (path, attrs) (getA_mem hq) hpd
      · exact hothers p h' hpne

theorem rootInv_openOp {fs : FS} (hI : RootInv fs) {ino flags : Nat} :
    RootInv (fs.openOp ino flags).2 := by
  unfold FS.openOp
  by_cases hc : (getA fs.data_table ino).isSome
  · rw [if_pos hc]
    rcases fs.update_fs_size.eq_none_or_eq_some with hu | ⟨fs1, hu⟩
    · rw [hu]
      exact hI
    · rw [hu]
      exact rootInv_of_update hI hu
  · rw [if_neg hc]
    exact hI

theorem rootInv_flush {fs : FS} (hI : RootInv fs) {ino : Nat} :
    RootInv (fs.flush ino).2 := by
  unfold FS.flush
  by_cases hc : (getA fs.data_table ino).isSome
  · rw [if_pos hc]
    rcases fs.update_fs_size.eq_none_or_eq_some with hu | ⟨fs1, hu⟩
    · rw [hu]
      exact hI
    · rw [hu]
      exact rootInv_of_update hI hu
  · rw [if_neg hc]
    exact hI

theorem rootInv_release {fs : FS} (hI : RootInv fs) {ino : Nat} :
    RootInv (fs.release ino).2 := by
  unfold FS.release
  by_cases hc : (getA fs.data_table ino).isSome
  · rw [if_pos hc]
    rcases fs.update_fs_size.eq_none_or_eq_some with hu | ⟨fs1, hu⟩
    · rw [hu]
      exact hI
    · rw [hu]
      exact rootInv_of_update hI hu
  · rw [if_neg hc]
    exact hI

theorem rootInv_write {fs : FS} (hI : RootInv fs) {ino offset : Nat}
    {data : List Nat} : RootInv (fs.write ino offset data).2 := by
  unfold FS.write
  rcases (getA fs.path_table ino).eq_none_or_eq_some with hp | ⟨path, hp⟩
  · rw [hp]
    exact hI
  · rw [hp]
    dsimp only
    rcases (getA fs.lookup_table path).eq_none_or_eq_some with hq | ⟨attrs, hq⟩
    · rw [hq]
      exact hI
    · rw [hq]
      dsimp only
      rcases (getA fs.data_table ino).eq_none_or_eq_some with hd | ⟨existing, hd⟩
      · rw [hd]
        exact hI
      · rw [hd]
        dsimp only
        by_cases hpan : 0 < data.length ∧ existing.length < offset
        · rw [if_pos hpan]
          exact hI
        · rw [if_neg hpan]
          rcases (fs.writeState ino offset data path attrs
              existing).update_fs_size.eq_none_or_eq_some with hu | ⟨fs2, hu⟩
          · rw [hu]
            exact rootInv_writeState hI hq
          · rw [hu]
            exact rootInv_of_update (rootInv_writeState hI hq) hu

theorem rootInv_step {fs : FS} {op : Op} (hI : RootInv fs)
    (hop : op.avoidsRootName = true) : RootInv (fs.step op).2 := by
  cases op with
  | lookup parent name => exact hI
  | getattr ino => exact hI
  | read ino offset => exact hI
  | readdir ino offset cap => exact hI
  | setattr ino => exact hI
  | mknod parent name mode umask rdev =>
    show RootInv (fs.mknod parent name mode umask rdev).2
    exact rootInv_mknod hI (by simpa [Op.avoidsRootName] using hop)
  | unlink parent name =>
    show RootInv (fs.unlink parent name).2
    exact rootInv_unlink hI (by simpa [Op.avoidsRootName] using hop)
  | openOp ino flags =>
    show RootInv (fs.openOp ino flags).2
    exact rootInv_openOp hI
  | write ino offset data =>
    show RootInv (fs.write ino offset data).2
    exact rootInv_write hI
  | flush ino =>
    show RootInv (fs.flush ino).2
    exact rootInv_flush hI
  | release ino =>
    show RootInv (fs.release ino).2
    exact rootInv_release hI

theorem rootInv_run {fs : FS} {ops : List Op} (hI : RootInv fs)
    (hops : ∀ op ∈ ops, op.avoidsRootName = true) : RootInv (fs.run ops) := by
  induction ops generalizing fs with
  | nil => exact hI
  | cons op ops ih =>
    exact ih (rootInv_step hI (hops op (List.mem_cons_self _ _)))
      (fun o ho => hops o (List.mem_cons_of_mem _ ho))

theorem rootInv_getattr {fs : FS} (hI : RootInv fs) :
    ∃ a, fs.getattr 1 = FsResult.ok a ∧ a.ino = 1 ∧
      a.kind = FileType.directory := by
  obtain ⟨⟨a, ha, ha1, hak⟩, hothers, _⟩ := hI
  refine ⟨a, ?_, ha1, hak⟩
  unfold FS.getattr
  rw [find?_ino_of_getA ha ha1 hothers]

theorem rootInv_seeded : RootInv seededFS := by
  refine ⟨⟨ROOT_DIR_ATTR, rfl, rfl, rfl⟩, ?_, ?_⟩
  · decide
  · decide

/-- C3 (amended): for every sequence of operations in which the reserved
name `"."` is never passed as the name argument of `mknod` or `unlink`,
`getattr(1)` on the resulting state succeeds and returns directory-kind
attributes with inode 1: the root record is never removed or reassigned by
such sequences.  (The unrestricted claim fails: `unlink(1, ".")` removes the
root record, see the counterexample.) -/
theorem c3_amended (ops : List Op)
    (hops : ∀ op ∈ ops, op.avoidsRootName = true) :
    ∃ a, (seededFS.run ops).getattr 1 = FsResult.ok a ∧
      a.ino = 1 ∧ a.kind = FileType.directory :=
  rootInv_getattr (rootInv_run rootInv_seeded hops)

/-- Witness for C3 (amended): a concrete request sequence (create a file,
delete a seeded file, open the other seeded file) after which `getattr(1)`
still returns the root directory attributes. -/
theorem c3_witness :
    (∀ op ∈ [Op.mknod 1 "f" 0 0 0, Op.unlink 1 "hello.txt", Op.openOp 3 0],
      op.avoidsRootName = true) ∧
    ∃ a, (seededFS.run [Op.mknod 1 "f" 0 0 0, Op.unlink 1 "hello.txt",
      Op.openOp 3 0]).getattr 1 = FsResult.ok a ∧ a.ino = 1 ∧
      a.kind = FileType.directory :=
  ⟨by decide, c3_amended _ (by decide)⟩

/-- Counterexample for C3 as stated: `unlink(1, ".")` succeeds on the seeded
state (the code never guards the reserved name), after which `getattr(1)`
raises EntryNotFound. -/
theorem c3_counterexample :
    (seededFS.unlink 1 ".").1 = FsResult.ok () ∧
    (seededFS.unlink 1 ".").2.getattr 1 = FsResult.enoent :=
  ⟨rfl, rfl⟩


/-- C1: the claim says `read` clamps any offset past the end of the blob to
an empty result and never performs an out-of-bounds access.  The code slices
`&data[offset..]` unchecked: on the seeded 13-byte `hello.txt` blob
(inode 2), `read(2, 100)` performs an out-of-bounds slice and panics,
aborting the process, instead of returning an empty result.  (At
`offset = 13` the slice is still legal and yields the empty result; the
claim fails only strictly past the length.) -/
theorem c1_code_bug :
    seededFS.read 2 100 = FsResult.panic ∧
    ((getA seededFS.data_table 2).getD []).length = 13 ∧
    seededFS.read 2 13 = FsResult.ok [] :=
  ⟨rfl, rfl, rfl⟩

/-- C2: the claim states the canonical overwrite-at-offset policy:
`write(inode, 0, "abc")` on a fresh one-byte blob must leave the blob equal
to the 3-byte sequence `"abc"` with `attributes.size = 3`.  The code instead
inserts the bytes one by one (`Vec::insert`), so the one-byte blob `[0]`
grows to the 4-byte `"abc\x00"` (`[97, 98, 99, 0]`) while `attributes.size`
is set to 3 — the blob does not equal `"abc"` and its length disagrees with
the recorded size. -/
theorem c2_code_bug :
    ((((seededFS.mknod 1 "f" 0 0 0).2.write 4 0 [97, 98, 99]).2).read 4 0) =
      FsResult.ok [97, 98, 99, 0] ∧
    (((seededFS.mknod 1 "f" 0 0 0).2.write 4 0 [97, 98, 99]).1 =
      FsResult.ok 3) ∧
    ((getA (((seededFS.mknod 1 "f" 0 0 0).2.write 4 0
      [97, 98, 99]).2).lookup_table "f").map FileAttr.size) = some 3 :=
  ⟨rfl, rfl, rfl⟩

/-- C6 (amended): `mknod` ignores the parent inode entirely: for every
parent (root or not) and every name it succeeds, allocating the fresh inode
`last_inode + 1`, registering a regular-file record of size 1 under the
name, and storing the one-byte zero blob — it never raises EntryNotFound. -/
theorem c6_amended (fs : FS) (parent : Nat) (name : String)
    (mode umask rdev : Nat) :
    ∃ a, (fs.mknod parent name mode umask rdev).1 = FsResult.ok a ∧
      a.ino = fs.last_inode + 1 ∧ a.kind = FileType.regularFile ∧
      getA (fs.mknod parent name mode umask rdev).2.lookup_table name =
        some a ∧
      getA (fs.mknod parent name mode umask rdev).2.data_table a.ino =
        some [0] :=
  ⟨_, rfl, rfl, rfl, getA_insertA_self _ _ _, getA_insertA_self _ _ _⟩

/-- Counterexample for C6 as stated: `mknod(parent = 2, "f")` — a parent
different from the root inode 1 — does not raise EntryNotFound; it succeeds
and creates the namespace entry. -/
theorem c6_counterexample :
    (seededFS.mknod 2 "f" 0 0 0).1 ≠ FsResult.enoent ∧
    (getA (seededFS.mknod 2 "f" 0 0 0).2.lookup_table "f").isSome = true := by
  decide

/-- C7: the claim says `setattr` either returns the current attributes or
raises EntryNotFound, in particular on the root inode 1 (which has no
path-index entry — `FS::default` registers the root under key 0).  The code
indexes `self.path_table[&ino]`, which panics on a missing key: `setattr(1)`
on the seeded state aborts the process instead of raising EntryNotFound,
and so does `setattr` on any never-allocated inode such as 99. -/
theorem c7_code_bug :
    seededFS.setattr 1 = FsResult.panic ∧
    getA seededFS.path_table 1 = none ∧
    seededFS.setattr 99 = FsResult.panic :=
  ⟨rfl, rfl, rfl⟩

/-- C8: after `mknod(1, "f")` with any caller-supplied mode/umask/rdev,
`getattr` on the new inode succeeds with kind regular-file and size 1,
`lookup(1, "f")` returns the identical attributes, and the new blob is
exactly the one-byte zero sequence.  The hypothesis is the allocator
invariant (every namespace inode is at most `last_inode`), which holds in
every reachable state. -/
theorem c8_mknod_creates (fs : FS) (h : BasicInv fs) (mode umask rdev : Nat) :
    ∃ a, (fs.mknod 1 "f" mode umask rdev).1 = FsResult.ok a ∧
      a.kind = FileType.regularFile ∧ a.size = 1 ∧
      (fs.mknod 1 "f" mode umask rdev).2.getattr a.ino = FsResult.ok a ∧
      (fs.mknod 1 "f" mode umask rdev).2.lookup 1 "f" = FsResult.ok a ∧
      getA (fs.mknod 1 "f" mode umask rdev).2.data_table a.ino = some [0] := by
  unfold FS.mknod FS.add_file
  dsimp only
  refine ⟨_, rfl, rfl, rfl, ?_, ?_, getA_insertA_self _ _ _⟩
  · unfold FS.getattr
    dsimp only
    rw [find?_ino_insertA (i := fs.last_inode + 1)
      (fun p hp => by have hb := h p hp; omega) rfl]
  · unfold FS.lookup
    rw [if_neg (by simp)]
    rw [getA_insertA_self]

/-- Witness for C8: instantiated on the seeded state. -/
theorem c8_witness :
    BasicInv seededFS ∧
    ∃ a, (seededFS.mknod 1 "f" 0 0 0).1 = FsResult.ok a ∧
      a.kind = FileType.regularFile ∧ a.size = 1 ∧
      (seededFS.mknod 1 "f" 0 0 0).2.getattr a.ino = FsResult.ok a ∧
      (seededFS.mknod 1 "f" 0 0 0).2.lookup 1 "f" = FsResult.ok a ∧
      getA (seededFS.mknod 1 "f" 0 0 0).2.data_table a.ino = some [0] :=
  ⟨by unfold BasicInv; decide, c8_mknod_creates seededFS (by unfold BasicInv; decide) 0 0 0⟩

theorem deadInodeOps (st : FS) (i flags offset woffset : Nat)
    (bytes blob : List Nat) (name : String)
    (hd : getA st.data_table i = some blob)
    (hroot : (getA st.lookup_table ".").isSome = true)
    (hp : getA st.path_table i = some name)
    (hq : getA st.lookup_table name = none)
    (hoff : offset ≤ blob.length) :
    (st.openOp i flags).1 = FsResult.ok (0, flags) ∧
    (st.flush i).1 = FsResult.ok () ∧
    (st.release i).1 = FsResult.ok () ∧
    st.read i offset = FsResult.ok (blob.drop offset) ∧
    (st.write i woffset bytes).1 = FsResult.enoent := by
  have hds : (getA st.data_table i).isSome = true := by rw [hd]; rfl
  have hupd : ∃ fs2, st.update_fs_size = some fs2 := by
    rcases Option.isSome_iff_exists.1 hroot with ⟨ra, hra⟩
    unfold FS.update_fs_size
    rw [hra]
    exact ⟨_, rfl⟩
  obtain ⟨fs2, hupd⟩ := hupd
  refine ⟨?_, ?_, ?_, ?_, ?_⟩
  · unfold FS.openOp
    rw [if_pos hds, hupd]
  · unfold FS.flush
    rw [if_pos hds, hupd]
  · unfold FS.release
    rw [if_pos hds, hupd]
  · unfold FS.read
    rw [hd]
    dsimp only
    rw [if_neg (by omega)]
  · unfold FS.write
    rw [hp]
    dsimp only
    rw [hq]

/-- C9: create a file via `mknod(1, name)` and immediately remove it via
`unlink(1, name)`.  The blob and the path-index entry survive (delete does
not purge them), so `open`, `flush`, `release` and in-bounds `read` on the
dead inode still succeed — `read` returns the retained one-byte zero blob —
while `write` raises EntryNotFound because the namespace entry for the
inode's recorded name is gone.  Hypotheses: the namespace keys are unique
and the root entry is present (both hold in every reachable state), the
created name is not the reserved `"."`, and the read offset is within the
one-byte blob. -/
theorem c9_unlink_retains (fs : FS) (name : String)
    (mode umask rdev flags offset woffset : Nat) (bytes : List Nat)
    (hn : (fs.lookup_table.map Prod.fst).Nodup)
    (hroot : (getA fs.lookup_table ".").isSome = true)
    (hname : name ≠ ".")
    (hoff : offset ≤ 1) :
    (((fs.mknod 1 name mode umask rdev).2.unlink 1 name).1 =
      FsResult.ok ()) ∧
    (getA ((fs.mknod 1 name mode umask rdev).2.unlink 1 name).2.data_table
      (fs.last_inode + 1) = some [0]) ∧
    (getA ((fs.mknod 1 name mode umask rdev).2.unlink 1 name).2.path_table
      (fs.last_inode + 1) = some name) ∧
    ((((fs.mknod 1 name mode umask rdev).2.unlink 1 name).2.openOp
      (fs.last_inode + 1) flags).1 = FsResult.ok (0, flags)) ∧
    ((((fs.mknod 1 name mode umask rdev).2.unlink 1 name).2.flush
      (fs.last_inode + 1)).1 = FsResult.ok ()) ∧
    ((((fs.mknod 1 name mode umask rdev).2.unlink 1 name).2.release
      (fs.last_inode + 1)).1 = FsResult.ok ()) ∧
    (((fs.mknod 1 name mode umask rdev).2.unlink 1 name).2.read
      (fs.last_inode + 1) offset = FsResult.ok (List.drop offset [0])) ∧
    ((((fs.mknod 1 name mode umask rdev).2.unlink 1 name).2.write
      (fs.last_inode + 1) woffset bytes).1 = FsResult.enoent) := by
  have hgname : getA (fs.mknod 1 name mode umask rdev).2.lookup_table name =
      some (fs.add_file name [0]).1.2 := getA_insertA_self _ _ _
  have hstate : ((fs.mknod 1 name mode umask rdev).2.unlink 1 name) =
      (FsResult.ok (), { (fs.mknod 1 name mode umask rdev).2 with
        lookup_table :=
          removeA (fs.mknod 1 name mode umask rdev).2.lookup_table name }) := by
    unfold FS.unlink
    rw [if_pos (by rw [hgname]; rfl)]
  rw [hstate]
  have hrootkeep : getA (removeA
      (fs.mknod 1 name mode umask rdev).2.lookup_table name) "." =
      getA fs.lookup_table "." := by
    rw [getA_removeA_ne (fun e => hname e.symm)]
    exact getA_insertA_ne (fun e => hname e.symm)
  have hmain := deadInodeOps
    { (fs.mknod 1 name mode umask rdev).2 with
      lookup_table :=
        removeA (fs.mknod 1 name mode umask rdev).2.lookup_table name }
    (fs.last_inode + 1) flags offset woffset bytes [0] name
    (getA_insertA_self _ _ _)
    (by rw [show getA (removeA
        (fs.mknod 1 name mode umask rdev).2.lookup_table name) "." =
        getA fs.lookup_table "." from hrootkeep]; exact hroot)
    (getA_insertA_self _ _ _)
    (getA_removeA_self (nodup_keys_insertA hn))
    (by simpa using hoff)
  exact ⟨rfl, getA_insertA_self _ _ _, getA_insertA_self _ _ _,
    hmain.1, hmain.2.1, hmain.2.2.1, hmain.2.2.2.1, hmain.2.2.2.2⟩

/-- Witness for C9: instantiated on the seeded state with name `"f"` and
read offset 0. -/
theorem c9_witness :
    (seededFS.lookup_table.map Prod.fst).Nodup ∧
    (getA seededFS.lookup_table ".").isSome = true ∧
    ("f" : String) ≠ "." ∧ (0 : Nat) ≤ 1 ∧
    ((((seededFS.mknod 1 "f" 0 0 0).2.unlink 1 "f").2.read 4 0 =
      FsResult.ok [0]) ∧
    (((((seededFS.mknod 1 "f" 0 0 0).2.unlink 1 "f").2.write 4 0
      [1, 2]).1 = FsResult.enoent))) := by
  refine ⟨by decide, by decide, by decide, by decide, ?_, ?_⟩
  · exact (c9_unlink_retains seededFS "f" 0 0 0 0 0 0 [1, 2]
      (by decide) (by decide) (by decide) (by decide)).2.2.2.2.2.2.1
  · exact (c9_unlink_retains seededFS "f" 0 0 0 0 0 0 [1, 2]
      (by decide) (by decide) (by decide) (by decide)).2.2.2.2.2.2.2

/-- C10: a second `mknod` with an already-bound name allocates a fresh,
strictly larger inode and replaces the namespace entry in place; name
uniqueness is preserved, `getattr` on the previously bound inode raises
EntryNotFound, and the old inode's blob and path-index entry survive, so
two path-index entries map distinct inodes to the same name.  Hypotheses:
unique namespace keys, unique namespace inodes, and inodes bounded by the
allocator counter — all hold in every reachable state — plus the bound
name's existing attribute/blob/path records. -/
theorem c10_remknod (fs : FS) (name : String) (a : FileAttr)
    (blob : List Nat) (mode umask rdev : Nat)
    (hkeys : (fs.lookup_table.map Prod.fst).Nodup)
    (hinos : (fs.lookup_table.map (fun p => p.2.ino)).Nodup)
    (hle : BasicInv fs)
    (hbound : getA fs.lookup_table name = some a)
    (hblob : getA fs.data_table a.ino = some blob)
    (hpath : getA fs.path_table a.ino = some name) :
    ∃ b, (fs.mknod 1 name mode umask rdev).1 = FsResult.ok b ∧
      a.ino < b.ino ∧
      getA (fs.mknod 1 name mode umask rdev).2.lookup_table name = some b ∧
      (((fs.mknod 1 name mode umask rdev).2.lookup_table.map
        Prod.fst).Nodup) ∧
      (fs.mknod 1 name mode umask rdev).2.getattr a.ino =
        FsResult.enoent ∧
      getA (fs.mknod 1 name mode umask rdev).2.data_table a.ino =
        some blob ∧
      getA (fs.mknod 1 name mode umask rdev).2.path_table a.ino =
        some name ∧
      getA (fs.mknod 1 name mode umask rdev).2.path_table b.ino =
        some name := by
  have hlt : a.ino ≤ fs.last_inode := hle (name, a) (getA_mem hbound)
  unfold FS.mknod FS.add_file
  dsimp only
  refine ⟨_, rfl, by dsimp only; omega, getA_insertA_self _ _ _, ?_, ?_,
    ?_, ?_, getA_insertA_self _ _ _⟩
  · exact nodup_keys_insertA hkeys
  · unfold FS.getattr
    dsimp only
    rw [List.find?_eq_none.2 ?_]
    intro p hp
    rcases mem_insertA_of_nodup hkeys hp with h' | ⟨hpm, hpk⟩
    · subst h'
      simp only [decide_eq_true_eq]
      omega
    · simp only [decide_eq_true_eq]
      intro he
      exact hpk (congrArg Prod.fst
        (List.inj_on_of_nodup_map hinos hpm (getA_mem hbound) he))
  · rw [getA_insertA_ne (by omega)]
    exact hblob
  · rw [getA_insertA_ne (by omega)]
    exact hpath

/-- Witness for C10: a second `mknod` of the seeded name `"hello.txt"`
(old inode 2, blob `"Hello, World!"`). -/
theorem c10_witness :
    (getA seededFS.lookup_table "hello.txt").isSome = true ∧
    ∃ b, (seededFS.mknod 1 "hello.txt" 0 0 0).1 = FsResult.ok b ∧
      2 < b.ino ∧
      getA (seededFS.mknod 1 "hello.txt" 0 0 0).2.lookup_table
        "hello.txt" = some b ∧
      (((seededFS.mknod 1 "hello.txt" 0 0 0).2.lookup_table.map
        Prod.fst).Nodup) ∧
      (seededFS.mknod 1 "hello.txt" 0 0 0).2.getattr 2 =
        FsResult.enoent ∧
      getA (seededFS.mknod 1 "hello.txt" 0 0 0).2.data_table 2 =
        some helloBytes ∧
      getA (seededFS.mknod 1 "hello.txt" 0 0 0).2.path_table 2 =
        some "hello.txt" ∧
      getA (seededFS.mknod 1 "hello.txt" 0 0 0).2.path_table b.ino =
        some "hello.txt" := by
  refine ⟨by decide, ?_⟩
  exact c10_remknod seededFS "hello.txt"
    { ino := 2, size := 13, blocks := 1,
      atime := 0, mtime := 0, ctime := 0, crtime := 0,
      kind := FileType.regularFile, perm := 493, nlink := 2,
      uid := 501, gid := 20, rdev := 0, flags := 0, blksize := 512 }
    helloBytes 0 0 0 (by decide) (by decide) (by unfold BasicInv; decide)
    (by decide) (by decide) (by decide)

theorem addCookies_length (i : Nat) (l : List (Nat × FileType × String)) :
    (addCookies i l).length = l.length := by
  induction l generalizing i with
  | nil => rfl
  | cons e rest ih => simp [addCookies, ih]

theorem addCookies_take (i c : Nat) (l : List (Nat × FileType × String)) :
    (addCookies i l).take c = addCookies i (l.take c) := by
  induction l generalizing i c with
  | nil => simp [addCookies]
  | cons e rest ih =>
    cases c with
    | zero => simp [addCookies]
    | succ c => simp [addCookies, ih]

theorem addCookies_drop (i n : Nat) (l : List (Nat × FileType × String)) :
    (addCookies i l).drop n = addCookies (i + n) (l.drop n) := by
  induction l generalizing i n with
  | nil => simp [addCookies]
  | cons e rest ih =>
    cases n with
    | zero => simp [addCookies]
    | succ n =>
      simp only [addCookies, List.drop_succ_cons, ih]
      congr 1
      omega

theorem lastCookie_addCookies (i : Nat) (l : List (Nat × FileType × String))
    (h : l ≠ []) : lastCookie (addCookies i l) = i + l.length := by
  induction l generalizing i with
  | nil => exact absurd rfl h
  | cons e rest ih =>
    cases rest with
    | nil => simp [addCookies, lastCookie]
    | cons e2 rest2 =>
      have := ih (i + 1) (by simp)
      simp only [addCookies, lastCookie, List.getLast?_cons_cons] at this ⊢
      rw [this]
      simp [addCookies]
      omega

theorem addCookies_cookies (i : Nat) (l : List (Nat × FileType × String)) :
    (addCookies i l).map (fun e => e.2.1) =
      (List.range l.length).map (fun j => i + j + 1) := by
  induction l generalizing i with
  | nil => simp [addCookies]
  | cons e rest ih =>
    simp only [addCookies, List.map_cons, List.length_cons,
      List.range_succ_eq_map, ih]
    rw [List.map_map]
    have hc : i + 0 + 1 = i + 1 := by omega
    rw [hc]
    refine congrArg (List.cons (i + 1)) ?_
    refine List.map_congr_left fun a ha => ?_
    simp only [Function.comp]
    omega

theorem readdir_page (fs : FS) (offset cap : Nat) :
    fs.readdir 1 offset cap =
      FsResult.ok ((fs.fullListing.drop offset).take cap) := by
  unfold FS.readdir
  rw [if_neg (by simp)]

theorem paginate_drop (fs : FS) (caps : List Nat) (offset : Nat)
    (h1 : ∀ c ∈ caps, 1 ≤ c)
    (h2 : fs.fullListing.length - offset ≤ caps.length) :
    fs.paginate offset caps = fs.fullListing.drop offset := by
  induction caps generalizing offset with
  | nil =>
    unfold FS.paginate
    refine (List.drop_eq_nil_of_le ?_).symm
    simp only [List.length_nil] at h2
    omega
  | cons c rest ih =>
    have hc : 1 ≤ c := h1 c (List.mem_cons_self _ _)
    unfold FS.paginate
    rw [readdir_page]
    dsimp only
    by_cases hempty : ((fs.fullListing.drop offset).take c).isEmpty = true
    · rw [if_pos hempty]
      rw [List.isEmpty_iff] at hempty
      rcases List.take_eq_nil_iff.1 hempty with h' | h'
      · omega
      · exact h'.symm
    · rw [if_neg hempty]
      have hne : (fs.fullListing.drop offset).take c ≠ [] := by
        intro h
        rw [h] at hempty
        exact hempty rfl
      have hplen : 1 ≤ ((fs.fullListing.drop offset).take c).length :=
        List.length_pos.2 hne
      have hLdrop : fs.fullListing.drop offset =
          addCookies offset (fs.readdirEntries.drop offset) := by
        show (addCookies 0 fs.readdirEntries).drop offset = _
        rw [addCookies_drop, Nat.zero_add]
      have hpage : (fs.fullListing.drop offset).take c =
          addCookies offset ((fs.readdirEntries.drop offset).take c) := by
        rw [hLdrop, addCookies_take]
      have hner : (fs.readdirEntries.drop offset).take c ≠ [] := by
        intro h
        rw [hpage, h] at hne
        exact hne rfl
      have hlast : lastCookie ((fs.fullListing.drop offset).take c) =
          offset + ((fs.fullListing.drop offset).take c).length := by
        rw [hpage, lastCookie_addCookies _ _ hner, addCookies_length]
      rw [hlast]
      rw [ih _ (fun x hx => h1 x (List.mem_cons_of_mem _ hx)) (by
        simp only [List.length_cons] at h2
        omega)]
      rw [← List.drop_drop]
      generalize fs.fullListing.drop offset = l'
      rcases le_or_lt c l'.length with hcl | hcl
      · have hl : (l'.take c).length = c := by
          rw [List.length_take]
          omega
        rw [hl]
        exact List.take_append_drop c l'
      · rw [List.take_of_length_le (Nat.le_of_lt hcl)]
        rw [List.drop_eq_nil_of_le (Nat.le_refl _)]
        exact List.append_nil l'

theorem fullListing_names (fs : FS) :
    fs.fullListing.map (fun e => e.2.2.2) =
      ".." :: fs.lookup_table.map Prod.fst := by
  have hgen : ∀ (i : Nat) (l : List (Nat × FileType × String)),
      (addCookies i l).map (fun e => e.2.2.2) = l.map (fun e => e.2.2) := by
    intro i l
    induction l generalizing i with
    | nil => rfl
    | cons e rest ih => simp [addCookies, ih]
  show (addCookies 0 fs.readdirEntries).map (fun e => e.2.2.2) = _
  rw [hgen]
  unfold FS.readdirEntries
  simp

/-- C4 (amended): for every partition of `readdir(1, ·)` calls into pages
(any per-page buffer capacities, each at least one entry, enough pages to
cover the listing), resuming each call at the cookie of the previous page's
last entry, the concatenated pages reproduce the full built listing exactly:
`".."` followed by one entry per current namespace record — the root's
reserved `"."` entry included, shown as an ordinary regular-file child —
each exactly once, and each carried cookie equals the entry's 1-based
position in the built listing. -/
theorem c4_amended (fs : FS) (caps : List Nat)
    (h1 : ∀ c ∈ caps, 1 ≤ c)
    (h2 : fs.fullListing.length ≤ caps.length) :
    fs.paginate 0 caps = fs.fullListing ∧
    fs.fullListing.map (fun e => e.2.1) =
      (List.range fs.fullListing.length).map (fun j => j + 1) ∧
    fs.fullListing.map (fun e => e.2.2.2) =
      ".." :: fs.lookup_table.map Prod.fst := by
  refine ⟨?_, ?_, fullListing_names fs⟩
  · have := paginate_drop fs caps 0 h1 (by omega)
    simpa using this
  · have hlen : fs.fullListing.length = fs.readdirEntries.length :=
      addCookies_length 0 _
    show (addCookies 0 fs.readdirEntries).map (fun e => e.2.1) = _
    rw [addCookies_cookies, hlen]
    exact List.map_congr_left fun a ha => by omega

/-- Witness for C4 (amended): the seeded listing has four entries; four
one-entry pages reproduce it. -/
theorem c4_witness :
    (∀ c ∈ [1, 1, 1, 1], 1 ≤ c) ∧
    seededFS.fullListing.length ≤ ([1, 1, 1, 1] : List Nat).length ∧
    (seededFS.paginate 0 [1, 1, 1, 1] = seededFS.fullListing ∧
    seededFS.fullListing.map (fun e => e.2.1) =
      (List.range seededFS.fullListing.length).map (fun j => j + 1) ∧
    seededFS.fullListing.map (fun e => e.2.2.2) =
      ".." :: seededFS.lookup_table.map Prod.fst) :=
  ⟨by decide, by decide, c4_amended seededFS [1, 1, 1, 1] (by decide)
    (by decide)⟩

/-- Counterexample for C4 as stated: on the seeded state, `readdir(1, 0)`
yields the root's reserved `"."` entry as an ordinary child (second entry,
inode 1, regular-file kind, cookie 2), which the claim says is never
shown. -/
theorem c4_counterexample :
    seededFS.readdir 1 0 10 = FsResult.ok
      [(1, 1, FileType.directory, ".."),
       (1, 2, FileType.regularFile, "."),
       (2, 3, FileType.regularFile, "hello.txt"),
       (3, 4, FileType.regularFile, "amongus.txt")] :=
  rfl

end DiscordFS
